import Mathlib

/-!
Verification development for the `advanced-logging-filter` tool
(`src/advanced_logging_filter/__main__.py`).

The development shallowly embeds the two core components of the tool:

* the bracketed-namespace expander `_resolve_bracketed_logging_namespace`,
  embedded over `List Char` with the exact Python string primitives it uses
  (`split(ch, maxsplit=1)`, `endswith`, `find`, `rfind`, slicing); its
  general recursion is embedded with an explicit recursion-depth fuel that
  is provably sufficient at `length + 1` (each nested call strictly
  decreases a length measure, so the depth of any run is bounded by the
  input length);

* the level resolver/applier `_apply_logging_level` together with the
  `FuncNameFilter` record filter, embedded as explicit state passing over a
  registry of logger nodes, with the live-program introspection facility
  (importable modules, classes defined in a module, class attributes with
  accessor detection) abstracted as a finite environment, and operator
  feedback (the `print` calls) modelled as an output trace.

Python strings are `List Char`, Python sets of strings are `List PyStr`
with membership semantics, logging levels are their numeric values
(CRITICAL = 50, ERROR = 40, WARNING = 30, INFO = 20, DEBUG = 10,
NOTSET = 0), and raised `ValueError`s are `Except` errors carrying the
data interpolated into the corresponding Python message.
-/

namespace AdvLog

/-- Python strings are embedded as lists of characters. -/
abbrev PyStr := List Char

/-- Python `s.split(ch, maxsplit=1)` together with `s.find(ch)` based
slicing: the pair of the part before the first occurrence of `ch` and the
part after it.  When `ch` does not occur, the result is `(s, [])`, which
matches the Python idiom `idx = s.find(ch); if idx == -1: idx = len(s);
(s[:idx], s[idx+1:])` used by the expander. -/
def splitAtFirst (ch : Char) : PyStr → PyStr × PyStr
  | [] => ([], [])
  | c :: cs =>
    if c = ch then ([], cs)
    else (c :: (splitAtFirst ch cs).1, (splitAtFirst ch cs).2)

/-- Python `idx = s.rfind(ch); if idx == -1: idx = len(s);
(s[:idx+1], s[idx+1:])`: the part of `s` up to and including the last
occurrence of `ch`, and the rest.  When `ch` does not occur, the result is
`(s, [])`. -/
def splitAfterLast (ch : Char) : PyStr → PyStr × PyStr
  | [] => ([], [])
  | c :: cs =>
    if ch ∈ cs then (c :: (splitAfterLast ch cs).1, (splitAfterLast ch cs).2)
    else if c = ch then ([c], cs)
    else (c :: cs, [])

/-- Python `s.rsplit(ch, maxsplit=1)` when `ch` occurs in `s`: the part
before the last occurrence of `ch` and the part after it.  When `ch` does
not occur the whole string is returned with an empty remainder (the source
only ever calls this on strings containing `'.'`). -/
def rsplitLast (ch : Char) (s : PyStr) : PyStr × PyStr :=
  if ch ∈ s then ((splitAfterLast ch s).1.dropLast, (splitAfterLast ch s).2)
  else (s, [])

/-- Errors raised by `_resolve_bracketed_logging_namespace` as
`ValueError`s, carrying the data interpolated into the Python message.
`fuel` is the out-of-recursion-depth marker of the embedding; it is never
produced at the canonical fuel `length + 1`. -/
inductive RErr where
  | missingSep (ns : PyStr)
  | missingClose (ns : PyStr)
  | badJoin (ns d : PyStr)
  | fuel
deriving DecidableEq

/-- The `for n in _resolve_bracketed_logging_namespace(c): result.append(prefix + n)`
step.  A recursive call returns either a string (no bracket in `c`) or a
list; Python iteration over a string yields its characters, which the
embedding reproduces faithfully. -/
def resolvedPrefixed (pre : PyStr) : PyStr ⊕ List PyStr → List PyStr
  | .inl s => s.map (fun c => pre ++ [c])
  | .inr l => l.map (fun x => pre ++ x)

mutual

/-- Shallow embedding of `_resolve_bracketed_logging_namespace`
(`__main__.py` lines 194-229).  A bracket-free namespace is returned
unchanged (as the string itself, `Sum.inl`); otherwise the string is split
at the first `'['`, the prefix must end in `'.'` and the suffix must end
in `']'`, and the stripped bracket body is processed by `resolveLoopFuel`.
The first argument is recursion-depth fuel; every nested call strictly
decreases a length measure, so `length + 1` fuel (see `pyResolve`) always
suffices. -/
def resolveFuel : Nat → PyStr → Except RErr (PyStr ⊕ List PyStr)
  | fuel, ns =>
    if '[' ∈ ns then
      match fuel with
      | 0 => .error .fuel
      | f + 1 =>
        let ps := splitAtFirst '[' ns
        if ps.1.getLast? = some '.' then
          if ps.2.getLast? = some ']' then
            match resolveLoopFuel f ns ps.1 ps.2.dropLast [] with
            | .error e => .error e
            | .ok l => .ok (.inr l)
          else .error (.missingClose ns)
        else .error (.missingSep ns)
    else .ok (.inl ns)

/-- The `while suffix:` loop of `_resolve_bracketed_logging_namespace`
(lines 207-228).  `ns` is the whole namespace (used in error messages),
`pre` the prefix up to the first `'['`, `acc` the `result` accumulator.
Each iteration takes the chunk `a` before the first comma; if it contains
`'['` the loop instead scans to the last `']'` of the remaining suffix
(`rfind`), recursively resolves that part, and requires the following
character, if any, to be `','` or `']'`; otherwise `prefix + a` is
appended and the loop continues after the comma. -/
def resolveLoopFuel : Nat → PyStr → PyStr → PyStr → List PyStr →
    Except RErr (List PyStr)
  | fuel, ns, pre, suffix, acc =>
    if suffix = [] then .ok acc
    else
      match fuel with
      | 0 => .error .fuel
      | f + 1 =>
        let ab := splitAtFirst ',' suffix
        if '[' ∈ ab.1 then
          let cd := splitAfterLast ']' suffix
          match resolveFuel f cd.1 with
          | .error e => .error e
          | .ok r =>
            let acc' := acc ++ resolvedPrefixed pre r
            match cd.2 with
            | [] => .ok acc'
            | ch :: d' =>
              if ch = ',' ∨ ch = ']' then resolveLoopFuel f ns pre d' acc'
              else .error (.badJoin ns cd.2)
        else resolveLoopFuel f ns pre ab.2 (acc ++ [pre ++ ab.1])

end

/-- The expander at its provably sufficient recursion depth: `expand` of
the specification. -/
def pyResolve (ns : PyStr) : Except RErr (PyStr ⊕ List PyStr) :=
  resolveFuel (ns.length + 1) ns

/-! ### The bracketed-namespace grammar of the specification

The specification's grammar (section 4.1): a bracketed spec is
`prefix '.' '[' item (',' item)* ']'` where an item is either a plain
dotted name or again a bracketed spec.  `NsTree`/`NsForest` are the parse
trees of that grammar (`NsForest` is the nonempty item list of one bracket
group), `renderT` prints a tree back to its concrete string, and
`specExpandT` is the expansion the specification prescribes, with nested
groups delimited by their matching `']'`. -/

mutual

inductive NsTree where
  | leaf (s : PyStr)
  | node (p : PyStr) (items : NsForest)

inductive NsForest where
  | one (t : NsTree)
  | cons (t : NsTree) (ts : NsForest)

end

mutual

/-- Print a parse tree back to its concrete namespace string. -/
def renderT : NsTree → PyStr
  | .leaf s => s
  | .node p items => p ++ '.' :: '[' :: (renderF items ++ [']'])

/-- Print a bracket body: the items' strings joined by commas. -/
def renderF : NsForest → PyStr
  | .one t => renderT t
  | .cons t ts => renderT t ++ ',' :: renderF ts

end

mutual

/-- The expansion prescribed by the specification: a plain name expands to
itself; a bracket group expands every item recursively, prefixes each
result with the outer prefix and the `'.'` separator, and concatenates in
order. -/
def specExpandT : NsTree → List PyStr
  | .leaf s => [s]
  | .node p items => (specExpandF items).map (fun x => p ++ '.' :: x)

/-- Expansion of a bracket body: concatenation of the items' expansions in
left-to-right order. -/
def specExpandF : NsForest → List PyStr
  | .one t => specExpandT t
  | .cons t ts => specExpandT t ++ specExpandF ts

end

/-- Characters allowed in plain names and prefixes of the grammar: the
grammar's meta-characters may not occur in them. -/
def okChar (c : Char) : Bool := !(c = '[' || c = ']' || c = ',')

mutual

/-- Well-formedness of a parse tree: names and prefixes are nonempty and
free of the meta-characters `'['`, `']'`, `','`. -/
def wfT : NsTree → Bool
  | .leaf s => !s.isEmpty && s.all okChar
  | .node p items => !p.isEmpty && p.all okChar && wfF items

/-- Well-formedness of a bracket body. -/
def wfF : NsForest → Bool
  | .one t => wfT t
  | .cons t ts => wfT t && wfF ts

end

/-- Whether a parse tree is a plain (bracket-free) name. -/
def isLeaf : NsTree → Bool
  | .leaf _ => true
  | .node _ _ => false

/-- Whether every item of a bracket body is a plain name. -/
def allLeafF : NsForest → Bool
  | .one t => isLeaf t
  | .cons t ts => isLeaf t && allLeafF ts

mutual

/-- The restriction under which the source's `rfind(']')` scan agrees with
matching-bracket scanning: in every bracket body, at most one item is
itself bracketed, and every item to the right of a bracketed item is a
plain name (so the last `']'` of the remaining body is the bracketed
item's own closing bracket). -/
def linT : NsTree → Bool
  | .leaf _ => true
  | .node _ items => linF items

/-- The `rfind` restriction for a bracket body. -/
def linF : NsForest → Bool
  | .one t => linT t
  | .cons t ts => (isLeaf t && linF ts) || (linT t && allLeafF ts)

end

/-! ### Lemmas about the string primitives -/

theorem mem_of_getLast?_eq : ∀ {l : PyStr} {c : Char}, l.getLast? = some c → c ∈ l
  | [], _, h => by simp at h
  | [a], c, h => by
    simp only [List.getLast?_singleton, Option.some.injEq] at h
    simp [h]
  | a :: b :: t, c, h => by
    rw [List.getLast?_cons_cons] at h
    exact List.mem_cons_of_mem _ (mem_of_getLast?_eq h)

theorem splitAtFirst_of_not_mem {ch : Char} :
    ∀ {l : PyStr}, ch ∉ l → splitAtFirst ch l = (l, []) := by
  intro l h
  induction l with
  | nil => rfl
  | cons c cs ih =>
    have hc : ¬c = ch := fun he => h (he ▸ List.mem_cons_self c cs)
    have hcs : ch ∉ cs := fun hm => h (List.mem_cons_of_mem _ hm)
    simp [splitAtFirst, hc, ih hcs]

theorem splitAtFirst_append {ch : Char} :
    ∀ {u v : PyStr}, ch ∉ u → splitAtFirst ch (u ++ ch :: v) = (u, v) := by
  intro u v h
  induction u with
  | nil => simp [splitAtFirst]
  | cons c u' ih =>
    have hc : ¬c = ch := fun he => h (he ▸ List.mem_cons_self c u')
    have hu : ch ∉ u' := fun hm => h (List.mem_cons_of_mem _ hm)
    simp [splitAtFirst, hc, ih hu]

theorem mem_splitAtFirst_fst {sep br : Char} (hne : ¬br = sep) :
    ∀ {u v : PyStr}, sep ∉ u → br ∈ (splitAtFirst sep (u ++ br :: v)).1 := by
  intro u v h
  induction u with
  | nil => simp [splitAtFirst, hne]
  | cons c u' ih =>
    have hc : ¬c = sep := fun he => h (he ▸ List.mem_cons_self c u')
    have hu : sep ∉ u' := fun hm => h (List.mem_cons_of_mem _ hm)
    simp only [List.cons_append, splitAtFirst, hc, if_false]
    exact List.mem_cons_of_mem _ (ih hu)

theorem splitAfterLast_cons_of_mem {ch c : Char} {cs : PyStr} (h : ch ∈ cs) :
    splitAfterLast ch (c :: cs) =
      (c :: (splitAfterLast ch cs).1, (splitAfterLast ch cs).2) := by
  simp [splitAfterLast, h]

theorem splitAfterLast_concat {ch : Char} :
    ∀ {u v : PyStr}, ch ∉ v → u.getLast? = some ch → splitAfterLast ch (u ++ v) = (u, v)
  | [], _, _, hl => by simp at hl
  | [a], v, hv, hl => by
    simp only [List.getLast?_singleton, Option.some.injEq] at hl
    subst hl
    simp [splitAfterLast, hv]
  | a :: b :: u', v, hv, hl => by
    rw [List.getLast?_cons_cons] at hl
    have hmem : ch ∈ (b :: u') ++ v :=
      List.mem_append_left _ (mem_of_getLast?_eq hl)
    have hrec : splitAfterLast ch ((b :: u') ++ v) = (b :: u', v) :=
      splitAfterLast_concat hv hl
    calc splitAfterLast ch ((a :: b :: u') ++ v)
        = splitAfterLast ch (a :: ((b :: u') ++ v)) := rfl
      _ = (a :: (splitAfterLast ch ((b :: u') ++ v)).1,
            (splitAfterLast ch ((b :: u') ++ v)).2) := splitAfterLast_cons_of_mem hmem
      _ = (a :: b :: u', v) := by rw [hrec]

/-! ### Lemmas about the grammar -/

theorem not_mem_of_all_okChar {s : PyStr} (h : s.all okChar = true) :
    '[' ∉ s ∧ ']' ∉ s ∧ ',' ∉ s := by
  have h' : ∀ c ∈ s, ¬c = '[' ∧ ¬c = ']' ∧ ¬c = ',' := by
    intro c hc
    have := List.all_eq_true.mp h c hc
    simp [okChar] at this
    obtain ⟨⟨ha, hb⟩, hc'⟩ := this
    exact ⟨ha, hb, hc'⟩
  exact ⟨fun hm => (h' _ hm).1 rfl, fun hm => (h' _ hm).2.1 rfl,
    fun hm => (h' _ hm).2.2 rfl⟩

theorem wf_leaf_parts {s : PyStr} (h : wfT (.leaf s) = true) :
    s ≠ [] ∧ '[' ∉ s ∧ ']' ∉ s ∧ ',' ∉ s := by
  simp only [wfT, Bool.and_eq_true, Bool.not_eq_true'] at h
  obtain ⟨h1, h2⟩ := h
  have := not_mem_of_all_okChar h2
  exact ⟨by simpa [List.isEmpty_iff] using h1, this.1, this.2.1, this.2.2⟩

theorem wf_node_parts {p : PyStr} {items : NsForest}
    (h : wfT (.node p items) = true) :
    p ≠ [] ∧ '[' ∉ p ∧ ']' ∉ p ∧ ',' ∉ p ∧ wfF items = true := by
  simp only [wfT, Bool.and_eq_true, Bool.not_eq_true'] at h
  obtain ⟨⟨h1, h2⟩, h3⟩ := h
  have := not_mem_of_all_okChar h2
  exact ⟨by simpa [List.isEmpty_iff] using h1, this.1, this.2.1, this.2.2, h3⟩

theorem renderT_node_concat (p : PyStr) (items : NsForest) :
    renderT (.node p items) = (p ++ '.' :: '[' :: renderF items) ++ [']'] := by
  simp [renderT]

theorem renderT_node_split (p : PyStr) (items : NsForest) :
    renderT (.node p items) = (p ++ ['.']) ++ '[' :: (renderF items ++ [']']) := by
  simp [renderT]

theorem renderT_node_length (p : PyStr) (items : NsForest) :
    (renderT (.node p items)).length = p.length + (renderF items).length + 3 := by
  simp [renderT]
  omega

theorem renderF_ne_nil : ∀ ts : NsForest, wfF ts = true → renderF ts ≠ []
  | .one t, hw => by
    cases t with
    | leaf s =>
      have := (wf_leaf_parts (by simpa [wfF] using hw)).1
      simpa [renderF, renderT] using this
    | node p items => simp [renderF, renderT]
  | .cons t ts, _ => by
    simp [renderF]

theorem lin_of_allLeaf : ∀ ts : NsForest, allLeafF ts = true → linF ts = true
  | .one t, ha => by
    cases t with
    | leaf s => simp [linF, linT]
    | node p items => simp [allLeafF, isLeaf] at ha
  | .cons t ts, ha => by
    simp only [allLeafF, Bool.and_eq_true] at ha
    cases t with
    | leaf s => simp [linF, isLeaf, linT, lin_of_allLeaf ts ha.2]
    | node p items => simp [isLeaf] at ha

theorem no_rbracket_of_allLeaf :
    ∀ ts : NsForest, wfF ts = true → allLeafF ts = true → ']' ∉ renderF ts
  | .one t, hw, ha => by
    cases t with
    | leaf s =>
      exact (wf_leaf_parts (by simpa [wfF] using hw)).2.2.1
    | node p items => simp [allLeafF, isLeaf] at ha
  | .cons t ts, hw, ha => by
    simp only [allLeafF, Bool.and_eq_true] at ha
    simp only [wfF, Bool.and_eq_true] at hw
    cases t with
    | leaf s =>
      have hs := wf_leaf_parts hw.1
      have hrec := no_rbracket_of_allLeaf ts hw.2 ha.2
      simp only [renderF, renderT, List.mem_append, List.mem_cons]
      rintro (h | h | h)
      · exact hs.2.2.1 h
      · exact absurd h (by decide)
      · exact hrec h
    | node p items => simp [isLeaf] at ha

/-! ### Step lemmas for the resolver -/

theorem resolveFuel_of_not_mem {fuel : Nat} {ns : PyStr} (h : '[' ∉ ns) :
    resolveFuel fuel ns = .ok (.inl ns) := by
  rw [resolveFuel.eq_def]
  simp [h]

theorem resolveFuel_missingSep {f : Nat} {ns : PyStr} (h : '[' ∈ ns)
    (hpre : ¬(splitAtFirst '[' ns).1.getLast? = some '.') :
    resolveFuel (f + 1) ns = .error (.missingSep ns) := by
  rw [resolveFuel.eq_def]
  simp [h, hpre]

theorem resolveFuel_missingClose {f : Nat} {ns : PyStr} (h : '[' ∈ ns)
    (hpre : (splitAtFirst '[' ns).1.getLast? = some '.')
    (hsuf : ¬(splitAtFirst '[' ns).2.getLast? = some ']') :
    resolveFuel (f + 1) ns = .error (.missingClose ns) := by
  rw [resolveFuel.eq_def]
  simp [h, hpre, hsuf]

theorem resolveFuel_succ_run {f : Nat} {ns pre suffix : PyStr} {l : List PyStr}
    (h : '[' ∈ ns) (hsplit : splitAtFirst '[' ns = (pre, suffix))
    (hpre : pre.getLast? = some '.') (hsuf : suffix.getLast? = some ']')
    (hloop : resolveLoopFuel f ns pre suffix.dropLast [] = .ok l) :
    resolveFuel (f + 1) ns = .ok (.inr l) := by
  rw [resolveFuel.eq_def]
  simp [h, hsplit, hpre, hsuf, hloop]

theorem resolveLoop_nil {fuel : Nat} {ns pre : PyStr} {acc : List PyStr} :
    resolveLoopFuel fuel ns pre [] acc = .ok acc := by
  rw [resolveLoopFuel.eq_def]
  simp

theorem resolveLoop_plain {f : Nat} {ns pre suffix : PyStr} {acc : List PyStr}
    (hne : suffix ≠ []) (ha : '[' ∉ (splitAtFirst ',' suffix).1) :
    resolveLoopFuel (f + 1) ns pre suffix acc =
      resolveLoopFuel f ns pre (splitAtFirst ',' suffix).2
        (acc ++ [pre ++ (splitAtFirst ',' suffix).1]) := by
  rw [resolveLoopFuel.eq_def]
  simp [hne, ha]

theorem resolveLoop_group_last {f : Nat} {ns pre suffix c : PyStr}
    {acc : List PyStr} {r : PyStr ⊕ List PyStr}
    (hne : suffix ≠ []) (ha : '[' ∈ (splitAtFirst ',' suffix).1)
    (hcd : splitAfterLast ']' suffix = (c, [])) (hres : resolveFuel f c = .ok r) :
    resolveLoopFuel (f + 1) ns pre suffix acc =
      .ok (acc ++ resolvedPrefixed pre r) := by
  rw [resolveLoopFuel.eq_def]
  simp [hne, ha, hcd, hres]

theorem resolveLoop_group_comma {f : Nat} {ns pre suffix c d' : PyStr}
    {acc : List PyStr} {r : PyStr ⊕ List PyStr}
    (hne : suffix ≠ []) (ha : '[' ∈ (splitAtFirst ',' suffix).1)
    (hcd : splitAfterLast ']' suffix = (c, ',' :: d'))
    (hres : resolveFuel f c = .ok r) :
    resolveLoopFuel (f + 1) ns pre suffix acc =
      resolveLoopFuel f ns pre d' (acc ++ resolvedPrefixed pre r) := by
  rw [resolveLoopFuel.eq_def]
  simp [hne, ha, hcd, hres]

/-! ### The expander agrees with the specification's expansion under the
`rfind` restriction -/

theorem resolveRenderMain : ∀ fuel : Nat,
    (∀ p items, wfT (.node p items) = true → linT (.node p items) = true →
        (renderT (.node p items)).length ≤ fuel →
        resolveFuel fuel (renderT (.node p items)) =
          .ok (.inr (specExpandT (.node p items)))) ∧
    (∀ ns pre items acc, wfF items = true → linF items = true →
        (renderF items).length < fuel →
        resolveLoopFuel fuel ns pre (renderF items) acc =
          .ok (acc ++ (specExpandF items).map (fun x => pre ++ x)))
  | 0 => by
    constructor
    · intro p items _ _ hlen
      rw [renderT_node_length] at hlen
      omega
    · intro ns pre items acc _ _ hlen
      omega
  | fuel + 1 => by
    have IH := resolveRenderMain fuel
    constructor
    · intro p items hwf hlin hlen
      obtain ⟨hp1, hp2, hp3, hp4, hwfi⟩ := wf_node_parts hwf
      have hlini : linF items = true := by simpa [linT] using hlin
      have hmem : '[' ∈ renderT (.node p items) := by
        rw [renderT_node_split]
        exact List.mem_append_right _ (List.mem_cons_self _ _)
      have hnp : '[' ∉ p ++ ['.'] := by
        intro hm
        rcases List.mem_append.mp hm with h | h
        · exact hp2 h
        · simp at h
      have hsplit : splitAtFirst '[' (renderT (.node p items)) =
          (p ++ ['.'], renderF items ++ [']']) := by
        rw [renderT_node_split]
        exact splitAtFirst_append hnp
      have hbound : (renderF items).length < fuel := by
        rw [renderT_node_length] at hlen
        omega
      have hloop := IH.2 (renderT (.node p items)) (p ++ ['.']) items [] hwfi hlini hbound
      rw [resolveFuel_succ_run hmem hsplit (List.getLast?_concat _)
        (List.getLast?_concat _) (by rw [List.dropLast_concat]; exact hloop)]
      simp [specExpandT, List.append_assoc]
    · intro ns pre items acc hwf hlin hlen
      cases items with
      | one t =>
        cases t with
        | leaf s =>
          have hw := wf_leaf_parts (show wfT (.leaf s) = true by simpa [wfF] using hwf)
          have hrs : renderF (.one (.leaf s)) = s := rfl
          have hsplit : splitAtFirst ',' s = (s, []) := splitAtFirst_of_not_mem hw.2.2.2
          rw [hrs, resolveLoop_plain hw.1 (by rw [hsplit]; exact hw.2.1), hsplit]
          rw [resolveLoop_nil]
          simp [specExpandF, specExpandT]
        | node q sub =>
          have hwt : wfT (.node q sub) = true := by simpa [wfF] using hwf
          have hlt : linT (.node q sub) = true := by simpa [linF] using hlin
          obtain ⟨hq1, hq2, hq3, hq4, hwfs⟩ := wf_node_parts hwt
          have hrs : renderF (.one (.node q sub)) = renderT (.node q sub) := rfl
          have hne : renderT (.node q sub) ≠ [] := by
            rw [renderT_node_concat]
            simp
          have hnq : ',' ∉ q ++ ['.'] := by
            intro hm
            rcases List.mem_append.mp hm with h | h
            · exact hq4 h
            · simp at h
          have habr : '[' ∈ (splitAtFirst ',' (renderT (.node q sub))).1 := by
            rw [renderT_node_split]
            exact mem_splitAtFirst_fst (by decide) hnq
          have hcd : splitAfterLast ']' (renderT (.node q sub)) =
              (renderT (.node q sub), []) := by
            conv_lhs => rw [show renderT (.node q sub) =
              renderT (.node q sub) ++ [] by simp]
            exact splitAfterLast_concat (by simp)
              (by rw [renderT_node_concat]; exact List.getLast?_concat _)
          have hres : resolveFuel fuel (renderT (.node q sub)) =
              .ok (.inr (specExpandT (.node q sub))) := by
            apply IH.1 q sub hwt hlt
            rw [hrs] at hlen
            omega
          rw [hrs, resolveLoop_group_last hne habr hcd hres]
          simp [specExpandF, resolvedPrefixed]
      | cons t ts =>
        have hwc : wfT t = true ∧ wfF ts = true := by
          simpa [wfF, Bool.and_eq_true] using hwf
        cases t with
        | leaf s =>
          have hw := wf_leaf_parts hwc.1
          have hlints : linF ts = true := by
            have hl := hlin
            simp only [linF, Bool.or_eq_true, Bool.and_eq_true] at hl
            rcases hl with ⟨_, h⟩ | ⟨_, h⟩
            · exact h
            · exact lin_of_allLeaf ts h
          have hrs : renderF (.cons (.leaf s) ts) = s ++ ',' :: renderF ts := rfl
          have hsplit : splitAtFirst ',' (s ++ ',' :: renderF ts) =
              (s, renderF ts) := splitAtFirst_append hw.2.2.2
          have hbound : (renderF ts).length < fuel := by
            rw [hrs] at hlen
            simp [List.length_append] at hlen
            omega
          rw [hrs, resolveLoop_plain (by simp) (by rw [hsplit]; exact hw.2.1), hsplit]
          rw [IH.2 ns pre ts (acc ++ [pre ++ s]) hwc.2 hlints hbound]
          simp [specExpandF, specExpandT, List.append_assoc]
        | node q sub =>
          have hlc : linT (.node q sub) = true ∧ allLeafF ts = true := by
            have hl := hlin
            simp only [linF, Bool.or_eq_true, Bool.and_eq_true] at hl
            rcases hl with ⟨h1, _⟩ | h
            · exact absurd h1 (by simp [isLeaf])
            · exact h
          obtain ⟨hq1, hq2, hq3, hq4, hwfs⟩ := wf_node_parts hwc.1
          have hrs : renderF (.cons (.node q sub) ts) =
              renderT (.node q sub) ++ ',' :: renderF ts := rfl
          have hnq : ',' ∉ q ++ ['.'] := by
            intro hm
            rcases List.mem_append.mp hm with h | h
            · exact hq4 h
            · simp at h
          have habr : '[' ∈
              (splitAtFirst ',' (renderT (.node q sub) ++ ',' :: renderF ts)).1 := by
            rw [renderT_node_split, List.append_assoc, List.cons_append]
            exact mem_splitAtFirst_fst (by decide) hnq
          have hnrb : ']' ∉ ',' :: renderF ts := by
            intro hm
            rcases List.mem_cons.mp hm with h | h
            · exact absurd h (by decide)
            · exact no_rbracket_of_allLeaf ts hwc.2 hlc.2 h
          have hcd : splitAfterLast ']' (renderT (.node q sub) ++ ',' :: renderF ts) =
              (renderT (.node q sub), ',' :: renderF ts) :=
            splitAfterLast_concat hnrb
              (by rw [renderT_node_concat]; exact List.getLast?_concat _)
          have hlen' : (renderT (.node q sub)).length + (renderF ts).length + 1 <
              fuel + 1 := by
            rw [hrs] at hlen
            simp [List.length_append] at hlen
            omega
          have hres : resolveFuel fuel (renderT (.node q sub)) =
              .ok (.inr (specExpandT (.node q sub))) := by
            apply IH.1 q sub hwc.1 (by simpa [linT] using hlc.1)
            omega
          rw [hrs, resolveLoop_group_comma (by simp) habr hcd hres]
          rw [IH.2 ns pre ts (acc ++ resolvedPrefixed pre (.inr (specExpandT (.node q sub))))
            hwc.2 (lin_of_allLeaf ts hlc.2) (by rw [renderT_node_length] at hlen'; omega)]
          simp [specExpandF, resolvedPrefixed, List.append_assoc]

/-! ### The logging facility and the live-program environment

The hierarchical logging registry is modelled as the root logger's level
plus an association list from dotted names to logger nodes (level and
attached filters); `logging.getLogger().getChild(ns)` keyed by `ns`.
A node absent from the list behaves like a freshly created logger:
level `NOTSET = 0`, no filters.  `getEffectiveLevel` walks the dotted
ancestor chain to the first node with a nonzero level, ending at the root.

The introspection facility (`importlib` / `inspect`) is a finite
environment: the set of importable module names, and for each module the
classes defined in it, each class an attribute table as `getattr` sees it
(a plain function, a property with optional getter/setter names, or any
other kind of attribute). -/

/-- Association-list lookup with decidable key equality (first match). -/
def alookup {κ β : Type} [DecidableEq κ] : List (κ × β) → κ → Option β
  | [], _ => none
  | (k', v) :: rest, k => if k' = k then some v else alookup rest k

/-- Association-list update: replace the first binding of the key, or
append a new binding at the end. -/
def aupdate {κ β : Type} [DecidableEq κ] : List (κ × β) → κ → β → List (κ × β)
  | [], k, v => [(k, v)]
  | (k', v') :: rest, k, v =>
    if k' = k then (k, v) :: rest else (k', v') :: aupdate rest k v

theorem alookup_aupdate_self {κ β : Type} [DecidableEq κ] :
    ∀ (l : List (κ × β)) (k : κ) (v : β), alookup (aupdate l k v) k = some v
  | [], k, v => by simp [aupdate, alookup]
  | (k', v') :: rest, k, v => by
    by_cases h : k' = k
    · simp [aupdate, alookup, h]
    · simp [aupdate, alookup, h, alookup_aupdate_self rest k v]

/-- Embedding of the `FuncNameFilter` class (`__main__.py` lines 20-31):
a growable set of function names, modelled as a list with set semantics. -/
structure FuncNameFilter where
  func_names : List PyStr
deriving DecidableEq

/-- `FuncNameFilter.add_func_name`: add a name to the set. -/
def FuncNameFilter.add (f : FuncNameFilter) (fn : PyStr) : FuncNameFilter :=
  ⟨f.func_names.insert fn⟩

/-- `FuncNameFilter.filter`: a record propagates iff its `funcName` is a
member of the set. -/
def FuncNameFilter.filterRec (f : FuncNameFilter) (funcName : PyStr) : Bool :=
  decide (funcName ∈ f.func_names)

/-- One logger node of the registry: its configured level (0 = NOTSET)
and its attached filters. -/
structure LoggerNode where
  level : Nat
  filters : List FuncNameFilter
deriving DecidableEq

/-- A logger that has never been configured: level NOTSET, no filters. -/
def freshNode : LoggerNode := ⟨0, []⟩

/-- The process-wide logging registry: the root logger's level and the
named child loggers. -/
structure Registry where
  rootLevel : Nat
  nodes : List (PyStr × LoggerNode)
deriving DecidableEq

/-- Fetch-or-create semantics of `logger.getChild(ns)`. -/
def getNode (reg : Registry) (ns : PyStr) : LoggerNode :=
  (alookup reg.nodes ns).getD freshNode

/-- Store a node back under its name. -/
def setNode (reg : Registry) (ns : PyStr) (node : LoggerNode) : Registry :=
  ⟨reg.rootLevel, aupdate reg.nodes ns node⟩

/-- The dotted parent of a namespace (text before the last `'.'`). -/
def parentOf (ns : PyStr) : PyStr := (rsplitLast '.' ns).1

/-- `getEffectiveLevel` with an explicit ancestor-walk bound: the first
nonzero configured level on the dotted ancestor chain, else the root
level.  The bound only limits the number of parent steps; each step
strictly shortens the name, so `ns.length` steps always suffice (see
`effLevel`). -/
def effLevelAux (reg : Registry) : Nat → PyStr → Nat
  | limit, ns =>
    if (getNode reg ns).level ≠ 0 then (getNode reg ns).level
    else if '.' ∈ ns then
      match limit with
      | 0 => reg.rootLevel
      | k + 1 => effLevelAux reg k (parentOf ns)
    else reg.rootLevel

/-- `child_logger.getEffectiveLevel()` of the embedding. -/
def effLevel (reg : Registry) (ns : PyStr) : Nat := effLevelAux reg ns.length ns

/-- A class attribute as `getattr` plus `inspect` see it: a plain
function, a property-like accessor with optional getter and setter
(carrying the `__name__`s of the underlying functions), or an attribute of
any other kind. -/
inductive PyAttr where
  | func
  | prop (fget fset : Option PyStr)
  | other
deriving DecidableEq

/-- A class defined in a module: its attribute table, as seen by
`getattr` (inherited attributes included). -/
structure PyClass where
  attrs : List (PyStr × PyAttr)
deriving DecidableEq

/-- The live-program introspection environment: importable module names,
and for every module the classes defined directly in it (the
`inspect.getmembers` + `value.__module__ == module_name` enumeration). -/
structure Env where
  modules : List PyStr
  classesOf : List (PyStr × List PyClass)
deriving DecidableEq

/-- `getattr(cls, name)` as an option (an `AttributeError` is `none`). -/
def getattrOpt (cls : PyClass) (name : PyStr) : Option PyAttr :=
  alookup cls.attrs name

/-- The classes defined directly in a module. -/
def classesIn (env : Env) (m : PyStr) : List PyClass :=
  (alookup env.classesOf m).getD []

/-- Errors raised by `_apply_logging_level` as `ValueError`s, plus
propagated expander errors.  `fuel` marks exhaustion of the loop-iteration
budget of the embedding. -/
inductive AErr where
  | noClasses (moduleName : PyStr)
  | shouldBeFunction (functionName ns : PyStr)
  | cantFind (functionName ns : PyStr)
  | resolveErr (e : RErr)
  | fuel
deriving DecidableEq

/-- The class scan of `_apply_logging_level` (lines 150-172): walk the
module's classes in order; a missing attribute (`AttributeError`) moves on
to the next class; a plain function resolves to the name itself; a
property resolves to its getter's name, else its setter's name; a
property with neither, or an attribute of any other kind, raises
`'"<fn>" should be a function within "<ns>"'` immediately (the `raise` is
inside the `try` but only `AttributeError` is caught); exhausting all
classes raises `'Can't find "<fn>" within "<ns>"'`. -/
def findFunction : List PyClass → PyStr → PyStr → Except AErr PyStr
  | [], fn, ns => .error (.cantFind fn ns)
  | cls :: rest, fn, ns =>
    match getattrOpt cls fn with
    | none => findFunction rest fn ns
    | some .func => .ok fn
    | some (.prop (some g) _) => .ok g
    | some (.prop none (some st)) => .ok st
    | some (.prop none none) => .error (.shouldBeFunction fn ns)
    | some .other => .error (.shouldBeFunction fn ns)

/-- Operator feedback printed by `_apply_logging_level`, as structured
events carrying the data interpolated into the Python message. -/
inductive Output where
  | rootSet (level : Nat)
  | setFor (level : Nat)
  | moduleNotFound (ns : PyStr)
  | applied (ns : PyStr)
  | overrides (ns : PyStr) (prev : Nat)
  | filteringStarts
  | filterName (fn : PyStr)
deriving DecidableEq

/-- The fixed root package prepended to every namespace (line 115). -/
def rootModuleName : PyStr := "capore_tuio_server".toList

/-- The numeric value of `logging.WARNING`. -/
def WARNING : Nat := 30

/-- Lines 174-182: fetch or create the child logger, record its previous
effective level, set its level, and report: a plain line when the
previous effective level was the `WARNING` default, an `overrides` line
when it differed from the new level, nothing otherwise. -/
def setLevelReport (reg : Registry) (level : Nat) (ns : PyStr) :
    Registry × List Output :=
  let prev := effLevel reg ns
  let node := getNode reg ns
  let reg' := setNode reg ns ⟨level, node.filters⟩
  let outs :=
    if prev = WARNING then [.applied ns]
    else if prev ≠ level then [.overrides ns prev]
    else []
  (reg', outs)

/-- Lines 184-191: attach or extend the function-name filter on the
logger node: create one seeded with the name when the node has no
filters, else add the name to the first existing filter. -/
def addFuncFilter (reg : Registry) (ns g : PyStr) : Registry × List Output :=
  let node := getNode reg ns
  match node.filters with
  | [] =>
    (setNode reg ns ⟨node.level, [⟨[g]⟩]⟩, [.filteringStarts, .filterName g])
  | f0 :: fs =>
    (setNode reg ns ⟨node.level, f0.add g :: fs⟩, [.filterName g])

/-- Lines 122-191, the processing of one bracket-free namespace: prefix
the root package; resolve the full path as a module, else split at the
last `'.'` and resolve the front as a module with the tail as a candidate
function name, else report `MODULE NOT FOUND` (with the truncated name,
as the source reassigns `namespace = module_name` before printing) and
change nothing.  For a function-scoped target, the module must define at
least one class and the class scan must resolve the name; then the level
is set and the function filter attached. -/
def processOne (env : Env) (reg : Registry) (level : Nat) (ns : PyStr) :
    Except AErr (Registry × List Output) :=
  let full := rootModuleName ++ '.' :: ns
  if full ∈ env.modules then
    .ok (setLevelReport reg level full)
  else
    let mf := rsplitLast '.' full
    if mf.1 ∈ env.modules then
      let classes := classesIn env mf.1
      if classes = [] then .error (.noClasses mf.1)
      else
        match findFunction classes mf.2 mf.1 with
        | .error e => .error e
        | .ok g =>
          let r1 := setLevelReport reg level mf.1
          let r2 := addFuncFilter r1.1 mf.1 g
          .ok (r2.1, r1.2 ++ r2.2)
    else .ok (reg, [.moduleNotFound mf.1])

/-- Lines 116-120 plus the per-namespace body: the `for namespace in
namespaces:` loop over a list that is mutated while being iterated.  A
namespace whose expansion differs from itself (Python `!=` between the
expander's result and the original string) has its expansion appended to
the end of the work list (`namespaces.extend(resolved)`) and is itself
skipped; all other namespaces are processed in place.  The first argument
is an iteration budget; it only bounds the number of loop steps. -/
def applyLoopFuel (env : Env) (level : Nat) :
    Nat → List PyStr → Registry → List Output →
    Except AErr (Registry × List Output)
  | _, [], reg, outs => .ok (reg, outs)
  | 0, _ :: _, _, _ => .error .fuel
  | f + 1, ns :: rest, reg, outs =>
    match pyResolve ns with
    | .error e => .error (.resolveErr e)
    | .ok (.inl s) =>
      if s = ns then
        match processOne env reg level ns with
        | .error e => .error e
        | .ok (reg', o) => applyLoopFuel env level f rest reg' (outs ++ o)
      else
        applyLoopFuel env level f (rest ++ s.map (fun c => [c])) reg outs
    | .ok (.inr l) => applyLoopFuel env level f (rest ++ l) reg outs

/-- `_apply_logging_level` (lines 104-191): with no namespaces, set the
root logger's level and report it; otherwise print the header and process
the namespace list.  `fuel` is the loop-iteration budget of the
embedding. -/
def applyLoggingLevel (env : Env) (fuel : Nat) (level : Nat) (reg : Registry)
    (namespaces : List PyStr) : Except AErr (Registry × List Output) :=
  if namespaces = [] then .ok (⟨level, reg.nodes⟩, [.rootSet level])
  else
    match applyLoopFuel env level fuel namespaces reg [] with
    | .error e => .error e
    | .ok (reg', outs) => .ok (reg', .setFor level :: outs)

/-! ### The `--set_logging_level` token processing of `main`

Lines 71-85: the first token must be upper-case and names the initial
level; the map `namespaces_by_level` is a `defaultdict(list)` (an
insertion-ordered dictionary) pre-seeded with `namespaces_by_level[level]
= []` for the initial level only.  The remaining tokens are consumed left
to right: an upper-case token switches the current level via
`logging.getLevelName` (which yields the numeric value for a registered
name and the string `'Level <name>'` otherwise), any other token is
appended to the current level's list.  Finally `_apply_logging_level` is
called once per dictionary entry. -/

/-- The result of `logging.getLevelName` applied to a level name: the
numeric value for a registered name, the `'Level <name>'` string
otherwise. -/
inductive PyLevel where
  | num (n : Nat)
  | name (s : PyStr)
deriving DecidableEq

/-- `logging.getLevelName` on an upper-case token, with the registered
name-to-number table of the `logging` module. -/
def getLevelNum (s : PyStr) : PyLevel :=
  if s = "CRITICAL".toList then .num 50
  else if s = "FATAL".toList then .num 50
  else if s = "ERROR".toList then .num 40
  else if s = "WARN".toList then .num 30
  else if s = "WARNING".toList then .num 30
  else if s = "INFO".toList then .num 20
  else if s = "DEBUG".toList then .num 10
  else if s = "NOTSET".toList then .num 0
  else .name ("Level ".toList ++ s)

/-- Python `str.isupper()`: at least one cased character and no lower-case
cased character. -/
def pyIsUpper (s : PyStr) : Bool :=
  s.any (fun c => c.isAlpha) && s.all (fun c => !c.isAlpha || c.isUpper)

/-- Append a namespace to the current level's entry of the
insertion-ordered dictionary (`defaultdict(list)`: create the entry at
the end on first use). -/
def pushNs (l : List (PyLevel × List PyStr)) (k : PyLevel) (ns : PyStr) :
    List (PyLevel × List PyStr) :=
  match l with
  | [] => [(k, [ns])]
  | (k', nss) :: rest =>
    if k' = k then (k', nss ++ [ns]) :: rest else (k', nss) :: pushNs rest k ns

/-- The token loop of lines 79-83 over `args.set_logging_level[1:]`. -/
def procTokens : PyLevel → List PyStr → List (PyLevel × List PyStr) →
    List (PyLevel × List PyStr)
  | _, [], acc => acc
  | cur, t :: ts, acc =>
    if pyIsUpper t then procTokens (getLevelNum t) ts acc
    else procTokens cur ts (pushNs acc cur t)

/-- Lines 72-83 of `main`: reject a non-upper-case first token, else build
`namespaces_by_level` from the remaining tokens, seeded with an empty
entry for the initial level. -/
def namespacesByLevel (first : PyStr) (rest : List PyStr) :
    Except Unit (List (PyLevel × List PyStr)) :=
  if pyIsUpper first then
    .ok (procTokens (getLevelNum first) rest [(getLevelNum first, [])])
  else .error ()

/-- The level attributed to each namespace token when scanning left to
right: an upper-case token switches the current level, any other token is
attributed to the current level.  This is the specification-side reading
of the token grammar, used to characterise `procTokens`. -/
def attribs : PyLevel → List PyStr → List (PyLevel × PyStr)
  | _, [] => []
  | cur, t :: ts =>
    if pyIsUpper t then attribs (getLevelNum t) ts
    else (cur, t) :: attribs cur ts

/-- The namespace tokens attributed to one level, in order. -/
def attribsFor (L : PyLevel) (cur : PyLevel) (ts : List PyStr) : List PyStr :=
  (attribs cur ts).filterMap (fun p => if p.1 = L then some p.2 else none)

/-! ### Supporting lemmas for the applier -/

theorem getNode_setNode_self (reg : Registry) (ns : PyStr) (node : LoggerNode) :
    getNode (setNode reg ns node) ns = node := by
  simp [getNode, setNode, alookup_aupdate_self]

theorem effLevel_of_ne_zero {reg : Registry} {ns : PyStr}
    (h : ¬(getNode reg ns).level = 0) :
    effLevel reg ns = (getNode reg ns).level := by
  rw [effLevel, effLevelAux.eq_def]
  simp [h]

mutual

/-- Expansions prescribed by the specification contain no brackets (and no
commas): every result is a concatenation of well-formed prefixes,
separating dots, and one well-formed plain name. -/
theorem specExpandT_no_brackets :
    ∀ t : NsTree, wfT t = true → ∀ x ∈ specExpandT t, '[' ∉ x ∧ ']' ∉ x
  | .leaf s, hw => by
    intro x hx
    have hp := wf_leaf_parts hw
    simp only [specExpandT, List.mem_singleton] at hx
    subst hx
    exact ⟨hp.2.1, hp.2.2.1⟩
  | .node p items, hw => by
    intro x hx
    obtain ⟨_, hp2, hp3, _, hwfi⟩ := wf_node_parts hw
    simp only [specExpandT, List.mem_map] at hx
    obtain ⟨y, hy, rfl⟩ := hx
    have hyb := specExpandF_no_brackets items hwfi y hy
    constructor
    · intro hm
      rcases List.mem_append.mp hm with h | h
      · exact hp2 h
      · rcases List.mem_cons.mp h with h | h
        · exact absurd h (by decide)
        · exact hyb.1 h
    · intro hm
      rcases List.mem_append.mp hm with h | h
      · exact hp3 h
      · rcases List.mem_cons.mp h with h | h
        · exact absurd h (by decide)
        · exact hyb.2 h

/-- Forest version of `specExpandT_no_brackets`. -/
theorem specExpandF_no_brackets :
    ∀ ts : NsForest, wfF ts = true → ∀ x ∈ specExpandF ts, '[' ∉ x ∧ ']' ∉ x
  | .one t, hw => by
    intro x hx
    exact specExpandT_no_brackets t (by simpa [wfF] using hw) x hx
  | .cons t ts, hw => by
    intro x hx
    have hwc : wfT t = true ∧ wfF ts = true := by
      simpa [wfF, Bool.and_eq_true] using hw
    simp only [specExpandF, List.mem_append] at hx
    rcases hx with h | h
    · exact specExpandT_no_brackets t hwc.1 x h
    · exact specExpandF_no_brackets ts hwc.2 x h

end

/-! ### Dictionary characterisation of the token loop -/

theorem alookup_pushNs (L k : PyLevel) (v : PyStr) :
    ∀ acc : List (PyLevel × List PyStr),
      alookup (pushNs acc k v) L =
        if L = k then some ((alookup acc L).getD [] ++ [v]) else alookup acc L
  | [] => by
    by_cases h : L = k
    · subst h
      simp [pushNs, alookup]
    · have h' : ¬k = L := fun he => h he.symm
      simp [pushNs, alookup, h, h']
  | (k', nss) :: rest => by
    by_cases hk : k' = k
    · subst hk
      by_cases hL : L = k'
      · subst hL
        simp [pushNs, alookup]
      · have hL' : ¬k' = L := fun he => hL he.symm
        simp [pushNs, alookup, hL, hL']
    · by_cases hL : L = k'
      · have hLk : ¬L = k := by rw [hL]; exact hk
        have hkL : k' = L := hL.symm
        simp [pushNs, alookup, hk, hkL, hLk]
      · have hL' : ¬k' = L := fun he => hL he.symm
        simp [pushNs, alookup, hk, hL', alookup_pushNs L k v rest]

theorem procTokens_lookup (L : PyLevel) :
    ∀ (ts : List PyStr) (cur : PyLevel) (acc : List (PyLevel × List PyStr)),
      alookup (procTokens cur ts acc) L =
        match alookup acc L with
        | some old => some (old ++ attribsFor L cur ts)
        | none =>
          if attribsFor L cur ts = [] then none else some (attribsFor L cur ts)
  | [], cur, acc => by
    simp only [procTokens, attribsFor, attribs, List.filterMap_nil]
    cases alookup acc L <;> simp
  | t :: ts, cur, acc => by
    by_cases hup : pyIsUpper t = true
    · have h1 : procTokens cur (t :: ts) acc =
          procTokens (getLevelNum t) ts acc := by simp [procTokens, hup]
      have h2 : attribsFor L cur (t :: ts) =
          attribsFor L (getLevelNum t) ts := by simp [attribsFor, attribs, hup]
      rw [h1, h2, procTokens_lookup L ts (getLevelNum t) acc]
    · have h1 : procTokens cur (t :: ts) acc =
          procTokens cur ts (pushNs acc cur t) := by simp [procTokens, hup]
      rw [h1, procTokens_lookup L ts cur (pushNs acc cur t), alookup_pushNs]
      by_cases hL : L = cur
      · subst hL
        have h2 : attribsFor L L (t :: ts) = t :: attribsFor L L ts := by
          simp [attribsFor, attribs, hup]
        rw [h2, if_pos rfl]
        cases alookup acc L <;> simp
      · have hcur : ¬cur = L := fun he => hL he.symm
        have h2 : attribsFor L cur (t :: ts) = attribsFor L cur ts := by
          simp [attribsFor, attribs, hup, hcur]
        rw [h2, if_neg hL]

deriving instance DecidableEq for Except

/-! ### Claims -/

/-- C1: the namespace expander satisfies the worked nesting contract: for
the input string `"a.[b,c.[d,e]]"`, expansion yields exactly the sequence
`["a.b", "a.c.d", "a.c.e"]`, in that order. -/
theorem c1_worked_nesting_contract :
    pyResolve "a.[b,c.[d,e]]".toList =
      .ok (.inr ["a.b".toList, "a.c.d".toList, "a.c.e".toList]) := by
  rfl

/-- C2 (amended): for every well-formed bracketed namespace spec in which
every bracket body contains at most one bracketed item and only plain
names to the right of it, the expander splits the bracket body on
top-level commas, recursively expands each item, prefixes every result
with the outer prefix including the trailing `'.'`, and concatenates the
item expansions preserving left-to-right order into a single flat
bracket-free sequence — the specification-side expansion `specExpandT` of
the parse tree.  (The source locates a bracketed item by scanning to the
last `']'` of the remaining bracket body, `rfind`, not to its matching
`']'`; the restriction `linT` states exactly when the two coincide.) -/
theorem c2_topLevel_split_expansion :
    ∀ (p : PyStr) (items : NsForest),
      wfT (.node p items) = true → linT (.node p items) = true →
      pyResolve (renderT (.node p items)) =
        .ok (.inr (specExpandT (.node p items))) ∧
      ∀ x ∈ specExpandT (.node p items), '[' ∉ x ∧ ']' ∉ x := by
  intro p items hwf hlin
  constructor
  · exact (resolveRenderMain ((renderT (.node p items)).length + 1)).1 p items
      hwf hlin (by omega)
  · exact specExpandT_no_brackets _ hwf

/-- The parse tree of `"a.[b,c.[d,e]]"` (used by the witness of C2). -/
def nestTree : NsTree :=
  .node "a".toList
    (.cons (.leaf "b".toList)
      (.one (.node "c".toList
        (.cons (.leaf "d".toList) (.one (.leaf "e".toList))))))

/-- Witness for C2 at the worked example `"a.[b,c.[d,e]]"`. -/
theorem c2_topLevel_split_expansion_witness :
    renderT nestTree = "a.[b,c.[d,e]]".toList ∧
    pyResolve "a.[b,c.[d,e]]".toList =
      .ok (.inr ["a.b".toList, "a.c.d".toList, "a.c.e".toList]) :=
  ⟨rfl, (c2_topLevel_split_expansion "a".toList
    (.cons (.leaf "b".toList)
      (.one (.node "c".toList
        (.cons (.leaf "d".toList) (.one (.leaf "e".toList))))))
    (by rfl) (by rfl)).1⟩

/-- The parse tree of `"a.[b.[c],d.[e]]"`: a well-formed spec with two
bracketed items in one body (used by the counterexample of C2). -/
def badTree : NsTree :=
  .node "a".toList
    (.cons (.node "b".toList (.one (.leaf "c".toList)))
      (.one (.node "d".toList (.one (.leaf "e".toList)))))

/-- Counterexample to C2 as stated: `"a.[b.[c],d.[e]]"` is a well-formed
bracketed spec whose matching-bracket expansion is
`["a.b.c", "a.d.e"]`, but the source's `rfind(']')` scan merges the two
bracketed items and the run fails with the missing-close-bracket
`ValueError` raised on the fragment `"d.[e"` instead of producing the
expansion. -/
theorem c2_matching_bracket_counterexample :
    wfT badTree = true ∧
    renderT badTree = "a.[b.[c],d.[e]]".toList ∧
    specExpandT badTree = ["a.b.c".toList, "a.d.e".toList] ∧
    pyResolve "a.[b.[c],d.[e]]".toList = .error (.missingClose "d.[e".toList) ∧
    pyResolve (renderT badTree) ≠ .ok (.inr (specExpandT badTree)) := by
  refine ⟨rfl, rfl, rfl, rfl, ?_⟩
  decide

/-- C3: for every dotted string `s` that contains no `'['` character,
expansion is a no-op: the expander returns the input unchanged (the
source returns the string itself; at its only call site, a result equal
to the input is processed as the single namespace `s`, i.e. as the
one-element sequence `[s]`). -/
theorem c3_bracket_free_noop :
    ∀ s : PyStr, '[' ∉ s → pyResolve s = .ok (.inl s) :=
  fun _ h => resolveFuel_of_not_mem h

/-- Witness for C3 at `"a.b.c"`. -/
theorem c3_bracket_free_noop_witness :
    pyResolve "a.b.c".toList = .ok (.inl "a.b.c".toList) :=
  c3_bracket_free_noop _ (by decide)

/-- C4: the expander fails with a syntax error on malformed bracket
grammar: when the character immediately preceding the first `'['` is not
`'.'` (the prefix before the first `'['` does not end in `'.'`), it fails
with the missing-separator error; when the prefix is well-formed but the
bracket group is not closed by a final `']'` (the text after the first
`'['` does not end in `']'`), it fails with the missing-closing-bracket
error. -/
theorem c4_malformed_bracket_errors :
    ∀ ns : PyStr, '[' ∈ ns →
      (¬(splitAtFirst '[' ns).1.getLast? = some '.' →
        pyResolve ns = .error (.missingSep ns)) ∧
      ((splitAtFirst '[' ns).1.getLast? = some '.' →
        ¬(splitAtFirst '[' ns).2.getLast? = some ']' →
        pyResolve ns = .error (.missingClose ns)) := by
  intro ns hmem
  exact ⟨fun hpre => resolveFuel_missingSep hmem hpre,
    fun hpre hsuf => resolveFuel_missingClose hmem hpre hsuf⟩

/-- Witness for C4 at the specification's two examples `"a[b]"` and
`"a.[b,c"`. -/
theorem c4_malformed_bracket_errors_witness :
    pyResolve "a[b]".toList = .error (.missingSep "a[b]".toList) ∧
    pyResolve "a.[b,c".toList = .error (.missingClose "a.[b,c".toList) :=
  ⟨(c4_malformed_bracket_errors _ (by decide)).1 (by decide),
   (c4_malformed_bracket_errors _ (by decide)).2 (by decide) (by decide)⟩

/-- C5: function-name filters keep a one-per-node invariant with OR
semantics.  For two function-scoped overrides resolving to the same
module `m` (the first function name resolving to `g1`, the second to
`g2`), starting from a registry whose node for `m` has no filters: the
first override creates exactly one `FuncNameFilter` on that node seeded
with `g1`; the second adds `g2` to that same filter instead of creating a
second one, leaving exactly one filter whose accepted-name set is
`{g1, g2}`; and a record passes the filter iff its function name is a
member of the set. -/
theorem c5_func_filter_invariant
    (env : Env) (reg : Registry) (lvl1 lvl2 : Nat)
    (ns1 ns2 m f1 f2 g1 g2 : PyStr)
    (h1 : rootModuleName ++ '.' :: ns1 ∉ env.modules)
    (h2 : rootModuleName ++ '.' :: ns2 ∉ env.modules)
    (hr1 : rsplitLast '.' (rootModuleName ++ '.' :: ns1) = (m, f1))
    (hr2 : rsplitLast '.' (rootModuleName ++ '.' :: ns2) = (m, f2))
    (hm : m ∈ env.modules)
    (hcl : ¬classesIn env m = [])
    (hff1 : findFunction (classesIn env m) f1 m = .ok g1)
    (hff2 : findFunction (classesIn env m) f2 m = .ok g2)
    (hflt : (getNode reg m).filters = []) :
    ∃ reg1 o1 reg2 o2,
      processOne env reg lvl1 ns1 = .ok (reg1, o1) ∧
      (getNode reg1 m).filters = [⟨[g1]⟩] ∧
      processOne env reg1 lvl2 ns2 = .ok (reg2, o2) ∧
      (getNode reg2 m).filters = [⟨List.insert g2 [g1]⟩] ∧
      (∀ x, x ∈ (FuncNameFilter.mk (List.insert g2 [g1])).func_names ↔
        x = g2 ∨ x = g1) ∧
      (∀ r, (FuncNameFilter.mk (List.insert g2 [g1])).filterRec r = true ↔
        r = g2 ∨ r = g1) := by
  have e1 : (setLevelReport reg lvl1 m).1 = setNode reg m ⟨lvl1, []⟩ := by
    simp [setLevelReport, hflt]
  have e2 : addFuncFilter (setNode reg m ⟨lvl1, []⟩) m g1 =
      (setNode (setNode reg m ⟨lvl1, []⟩) m ⟨lvl1, [⟨[g1]⟩]⟩,
       [.filteringStarts, .filterName g1]) := by
    simp [addFuncFilter, getNode_setNode_self]
  have hp1 : processOne env reg lvl1 ns1 =
      .ok (setNode (setNode reg m ⟨lvl1, []⟩) m ⟨lvl1, [⟨[g1]⟩]⟩,
        (setLevelReport reg lvl1 m).2 ++ [.filteringStarts, .filterName g1]) := by
    simp [processOne, h1, hr1, hm, hcl, hff1, e1, e2]
  set reg1 := setNode (setNode reg m ⟨lvl1, []⟩) m ⟨lvl1, [⟨[g1]⟩]⟩ with hreg1
  have hn1 : getNode reg1 m = ⟨lvl1, [⟨[g1]⟩]⟩ := getNode_setNode_self _ _ _
  have e3 : (setLevelReport reg1 lvl2 m).1 = setNode reg1 m ⟨lvl2, [⟨[g1]⟩]⟩ := by
    simp [setLevelReport, hn1]
  have e4 : addFuncFilter (setNode reg1 m ⟨lvl2, [⟨[g1]⟩]⟩) m g2 =
      (setNode (setNode reg1 m ⟨lvl2, [⟨[g1]⟩]⟩) m
         ⟨lvl2, [⟨List.insert g2 [g1]⟩]⟩, [.filterName g2]) := by
    simp [addFuncFilter, getNode_setNode_self, FuncNameFilter.add]
  have hp2 : processOne env reg1 lvl2 ns2 =
      .ok (setNode (setNode reg1 m ⟨lvl2, [⟨[g1]⟩]⟩) m ⟨lvl2, [⟨List.insert g2 [g1]⟩]⟩,
        (setLevelReport reg1 lvl2 m).2 ++ [.filterName g2]) := by
    simp [processOne, h2, hr2, hm, hcl, hff2, e3, e4]
  refine ⟨reg1, _, _, _, hp1, by rw [hn1], hp2, by rw [getNode_setNode_self], ?_, ?_⟩
  · intro x
    simp [List.mem_insert_iff]
  · intro r
    simp [FuncNameFilter.filterRec, List.mem_insert_iff]

/-- The environment of the witness of C5: module `capore_tuio_server.m`
defining one class with plain methods `f1` and `f2`. -/
def envC5 : Env :=
  ⟨["capore_tuio_server.m".toList],
   [("capore_tuio_server.m".toList,
     [⟨[("f1".toList, .func), ("f2".toList, .func)]⟩])]⟩

/-- Witness for C5: two function-scoped overrides `m.f1` then `m.f2`. -/
theorem c5_func_filter_invariant_witness :
    ∃ reg1 o1 reg2 o2,
      processOne envC5 ⟨30, []⟩ 10 "m.f1".toList = .ok (reg1, o1) ∧
      (getNode reg1 "capore_tuio_server.m".toList).filters =
        [⟨["f1".toList]⟩] ∧
      processOne envC5 reg1 10 "m.f2".toList = .ok (reg2, o2) ∧
      (getNode reg2 "capore_tuio_server.m".toList).filters =
        [⟨List.insert "f2".toList ["f1".toList]⟩] ∧
      (∀ x, x ∈ (FuncNameFilter.mk
          (List.insert "f2".toList ["f1".toList])).func_names ↔
        x = "f2".toList ∨ x = "f1".toList) ∧
      (∀ r, (FuncNameFilter.mk
          (List.insert "f2".toList ["f1".toList])).filterRec r = true ↔
        r = "f2".toList ∨ r = "f1".toList) :=
  c5_func_filter_invariant envC5 ⟨30, []⟩ 10 10 "m.f1".toList "m.f2".toList
    "capore_tuio_server.m".toList "f1".toList "f2".toList "f1".toList "f2".toList
    (by decide) (by decide) rfl rfl (by decide) (by decide) rfl rfl rfl

/-- C6 (amended): during function-name resolution over the classes of the
target module, a class attribute that is a property-like accessor with
neither getter nor setter is fatal immediately: the run aborts with the
`'"<fn>" should be a function within <ns>'` error and does not continue
to the next class (the `raise` sits inside the `try` block whose handler
only catches `AttributeError`).  The `'can't find <fn> within <ns>'`
error occurs exactly when no class has the attribute at all. -/
theorem c6_property_resolution :
    (∀ (cls : PyClass) (rest : List PyClass) (fn m : PyStr),
      getattrOpt cls fn = some (.prop none none) →
      findFunction (cls :: rest) fn m = .error (.shouldBeFunction fn m)) ∧
    (∀ (classes : List PyClass) (fn m : PyStr),
      findFunction classes fn m = .error (.cantFind fn m) ↔
        ∀ cls ∈ classes, getattrOpt cls fn = none) := by
  constructor
  · intro cls rest fn m h
    simp [findFunction, h]
  · intro classes fn m
    induction classes with
    | nil => simp [findFunction]
    | cons cls rest ih =>
      cases hg : getattrOpt cls fn with
      | none =>
        simp only [findFunction, hg]
        rw [ih]
        constructor
        · intro h cls' hc
          rcases List.mem_cons.mp hc with h' | h'
          · exact h' ▸ hg
          · exact h cls' h'
        · intro h cls' hc
          exact h cls' (List.mem_cons_of_mem _ hc)
      | some attr =>
        have hne : getattrOpt cls fn ≠ none := by simp [hg]
        constructor
        · intro h
          exfalso
          cases attr with
          | func => simp [findFunction, hg] at h
          | prop fg fs => cases fg <;> cases fs <;> simp [findFunction, hg] at h
          | other => simp [findFunction, hg] at h
        · intro h
          exact absurd (h cls (List.mem_cons_self _ _)) hne

/-- Witness for C6: a getter-and-setter-less property is fatal, and the
can't-find error surfaces on an exhausted class list. -/
theorem c6_property_resolution_witness :
    findFunction [⟨[("f".toList, PyAttr.prop none none)]⟩] "f".toList "m".toList
      = .error (.shouldBeFunction "f".toList "m".toList) ∧
    findFunction [] "f".toList "m".toList
      = .error (.cantFind "f".toList "m".toList) :=
  ⟨c6_property_resolution.1 _ [] _ _ rfl,
   (c6_property_resolution.2 [] _ _).mpr (by simp)⟩

/-- Counterexample to C6 as stated: with a first class whose attribute
`f` is a property with neither getter nor setter and a second class with
a plain function `f`, the search does not continue to the second class
(which the claim requires); it aborts with the should-be-a-function
error. -/
theorem c6_continue_counterexample :
    findFunction
      [⟨[("f".toList, PyAttr.prop none none)]⟩, ⟨[("f".toList, PyAttr.func)]⟩]
      "f".toList "m".toList = .error (.shouldBeFunction "f".toList "m".toList) ∧
    getattrOpt ⟨[("f".toList, PyAttr.func)]⟩ "f".toList = some .func ∧
    findFunction [⟨[("f".toList, PyAttr.func)]⟩] "f".toList "m".toList
      = .ok "f".toList ∧
    findFunction
      [⟨[("f".toList, PyAttr.prop none none)]⟩, ⟨[("f".toList, PyAttr.func)]⟩]
      "f".toList "m".toList ≠ .ok "f".toList := by
  refine ⟨rfl, rfl, rfl, ?_⟩
  decide

/-- C7 (amended): applying level X and then level Y (X distinct from Y,
X neither the WARNING default nor NOTSET, Y not NOTSET) to the same
module namespace records the previous effective level before each set,
reports the second application as overriding the first naming the
replaced level X, and leaves the namespace's logger with final effective
level Y.  (When X is the WARNING default the second application is
reported as a fresh set — the source cannot distinguish an explicit
WARNING from the inherited default; when X or Y is NOTSET the configured
level no longer determines the effective level.) -/
theorem c7_override_report
    (env : Env) (reg : Registry) (f g X Y : Nat) (ns : PyStr)
    (hnb : '[' ∉ ns)
    (hmod : rootModuleName ++ '.' :: ns ∈ env.modules)
    (hXY : ¬X = Y) (hXW : ¬X = WARNING) (hX0 : ¬X = 0) (hY0 : ¬Y = 0) :
    ∃ reg1 o1,
      applyLoggingLevel env (f + 1) X reg [ns] = .ok (reg1, o1) ∧
      applyLoggingLevel env (g + 1) Y reg1 [ns] =
        .ok (setNode reg1 (rootModuleName ++ '.' :: ns)
              ⟨Y, (getNode reg1 (rootModuleName ++ '.' :: ns)).filters⟩,
            [.setFor Y, .overrides (rootModuleName ++ '.' :: ns) X]) ∧
      effLevel (setNode reg1 (rootModuleName ++ '.' :: ns)
          ⟨Y, (getNode reg1 (rootModuleName ++ '.' :: ns)).filters⟩)
        (rootModuleName ++ '.' :: ns) = Y := by
  have hpr : pyResolve ns = .ok (.inl ns) := resolveFuel_of_not_mem hnb
  refine ⟨(setLevelReport reg X (rootModuleName ++ '.' :: ns)).1,
    .setFor X :: (setLevelReport reg X (rootModuleName ++ '.' :: ns)).2,
    ?_, ?_, ?_⟩
  · simp [applyLoggingLevel, applyLoopFuel, hpr, processOne, hmod]
  · have hn1 : getNode (setNode reg (rootModuleName ++ '.' :: ns)
        ⟨X, (getNode reg (rootModuleName ++ '.' :: ns)).filters⟩)
        (rootModuleName ++ '.' :: ns) =
        ⟨X, (getNode reg (rootModuleName ++ '.' :: ns)).filters⟩ :=
      getNode_setNode_self _ _ _
    have heff1 : effLevel (setNode reg (rootModuleName ++ '.' :: ns)
        ⟨X, (getNode reg (rootModuleName ++ '.' :: ns)).filters⟩)
        (rootModuleName ++ '.' :: ns) = X := by
      rw [effLevel_of_ne_zero (by rw [hn1]; exact hX0), hn1]
    simp [applyLoggingLevel, applyLoopFuel, hpr, processOne, hmod,
      setLevelReport, heff1, hn1, hXW, hXY]
  · have hn2 : getNode (setNode (setLevelReport reg X (rootModuleName ++ '.' :: ns)).1
        (rootModuleName ++ '.' :: ns)
        ⟨Y, (getNode (setLevelReport reg X (rootModuleName ++ '.' :: ns)).1
          (rootModuleName ++ '.' :: ns)).filters⟩)
        (rootModuleName ++ '.' :: ns) =
        ⟨Y, (getNode (setLevelReport reg X (rootModuleName ++ '.' :: ns)).1
          (rootModuleName ++ '.' :: ns)).filters⟩ := getNode_setNode_self _ _ _
    rw [effLevel_of_ne_zero (by rw [hn2]; exact hY0), hn2]

/-- The environment of the witness of C7: the single module
`capore_tuio_server.x`. -/
def envC7 : Env := ⟨["capore_tuio_server.x".toList], []⟩

/-- Witness for C7: ERROR (40) then INFO (20) on namespace `x`. -/
theorem c7_override_report_witness :
    ∃ reg1 o1,
      applyLoggingLevel envC7 1 40 ⟨30, []⟩ ["x".toList] = .ok (reg1, o1) ∧
      applyLoggingLevel envC7 1 20 reg1 ["x".toList] =
        .ok (setNode reg1 "capore_tuio_server.x".toList
              ⟨20, (getNode reg1 "capore_tuio_server.x".toList).filters⟩,
            [.setFor 20, .overrides "capore_tuio_server.x".toList 40]) ∧
      effLevel (setNode reg1 "capore_tuio_server.x".toList
          ⟨20, (getNode reg1 "capore_tuio_server.x".toList).filters⟩)
        "capore_tuio_server.x".toList = 20 :=
  c7_override_report envC7 ⟨30, []⟩ 0 0 40 20 "x".toList
    (by decide) (by decide) (by decide) (by decide) (by decide) (by decide)

/-- Counterexample to C7 as stated: with X = WARNING (30) and
Y = INFO (20) — X distinct from Y — the second application is reported as
a fresh set (a plain `applied` line), not as overriding the first: the
previous effective level equals the WARNING default, so the source prints
the no-override form. -/
theorem c7_warning_counterexample :
    applyLoggingLevel ⟨["capore_tuio_server.x".toList], []⟩ 1 30 ⟨30, []⟩
        ["x".toList] =
      .ok (⟨30, [("capore_tuio_server.x".toList, ⟨30, []⟩)]⟩,
        [.setFor 30, .applied "capore_tuio_server.x".toList]) ∧
    applyLoggingLevel ⟨["capore_tuio_server.x".toList], []⟩ 1 20
        ⟨30, [("capore_tuio_server.x".toList, ⟨30, []⟩)]⟩ ["x".toList] =
      .ok (⟨30, [("capore_tuio_server.x".toList, ⟨20, []⟩)]⟩,
        [.setFor 20, .applied "capore_tuio_server.x".toList]) ∧
    (Output.overrides "capore_tuio_server.x".toList 30) ∉
      [Output.setFor 20, Output.applied "capore_tuio_server.x".toList] := by
  refine ⟨rfl, rfl, ?_⟩
  decide

/-- C8: a namespace whose fully-qualified path resolves neither as a
module nor (after splitting at the last `'.'`) as a module plus trailing
segment is reported as `MODULE NOT FOUND` (with the truncated name the
source prints after reassigning `namespace = module_name`), raises no
error, leaves the registry unchanged, and processing continues with the
remaining namespaces of the batch. -/
theorem c8_module_not_found
    (env : Env) (level f : Nat) (ns : PyStr) (rest : List PyStr)
    (reg : Registry) (outs : List Output)
    (hnb : '[' ∉ ns)
    (hfull : rootModuleName ++ '.' :: ns ∉ env.modules)
    (hmod : (rsplitLast '.' (rootModuleName ++ '.' :: ns)).1 ∉ env.modules) :
    processOne env reg level ns =
      .ok (reg, [.moduleNotFound
        (rsplitLast '.' (rootModuleName ++ '.' :: ns)).1]) ∧
    applyLoopFuel env level (f + 1) (ns :: rest) reg outs =
      applyLoopFuel env level f rest reg
        (outs ++ [.moduleNotFound
          (rsplitLast '.' (rootModuleName ++ '.' :: ns)).1]) := by
  have hpr : pyResolve ns = .ok (.inl ns) := resolveFuel_of_not_mem hnb
  have hp : processOne env reg level ns =
      .ok (reg, [.moduleNotFound
        (rsplitLast '.' (rootModuleName ++ '.' :: ns)).1]) := by
    simp [processOne, hfull, hmod]
  exact ⟨hp, by simp [applyLoopFuel, hpr, hp]⟩

/-- The environment of the witness of C8: the single module
`capore_tuio_server.x`; `nope.q` resolves neither way. -/
def envC8 : Env := ⟨["capore_tuio_server.x".toList], []⟩

/-- Witness for C8 at the unresolvable namespace `nope.q`. -/
theorem c8_module_not_found_witness :
    processOne envC8 ⟨30, []⟩ 10 "nope.q".toList =
      .ok (⟨30, []⟩, [.moduleNotFound "capore_tuio_server.nope".toList]) ∧
    applyLoopFuel envC8 10 1 ["nope.q".toList] ⟨30, []⟩ [] =
      applyLoopFuel envC8 10 0 [] ⟨30, []⟩
        [.moduleNotFound "capore_tuio_server.nope".toList] :=
  c8_module_not_found envC8 10 0 "nope.q".toList [] ⟨30, []⟩ []
    (by decide) (by decide) (by decide)

/-- C10: when a namespace string contains brackets, the applier appends
its expanded results to the end of the work list and skips the original
entry; consequently, for a work list in which a bracketed spec precedes a
plain namespace, the plain namespace's override is applied (its registry
update performed and its output emitted) before the overrides for the
expanded results of the bracketed spec are processed. -/
theorem c10_bracketed_appended
    (env : Env) (level f : Nat) (b : PyStr) (rest : List PyStr)
    (reg : Registry) (outs : List Output) (exp : List PyStr)
    (hres : pyResolve b = .ok (.inr exp)) :
    applyLoopFuel env level (f + 1) (b :: rest) reg outs =
      applyLoopFuel env level f (rest ++ exp) reg outs ∧
    ∀ (g : Nat) (p : PyStr) (rp : Registry) (op : List Output),
      '[' ∉ p → processOne env reg level p = .ok (rp, op) →
      applyLoopFuel env level (g + 2) [b, p] reg outs =
        applyLoopFuel env level g exp rp (outs ++ op) := by
  have h1 : ∀ (f' : Nat) (rest' : List PyStr),
      applyLoopFuel env level (f' + 1) (b :: rest') reg outs =
        applyLoopFuel env level f' (rest' ++ exp) reg outs := by
    intro f' rest'
    simp [applyLoopFuel, hres]
  refine ⟨h1 f rest, ?_⟩
  intro g p rp op hnb hp
  rw [h1 (g + 1) [p]]
  have hpr : pyResolve p = .ok (.inl p) := resolveFuel_of_not_mem hnb
  simp [applyLoopFuel, hpr, hp]

/-- The environment of the witness of C10: modules `x`, `a.b`, `a.c`
under the root package. -/
def envC10 : Env :=
  ⟨["capore_tuio_server.x".toList, "capore_tuio_server.a.b".toList,
    "capore_tuio_server.a.c".toList], []⟩

/-- Witness for C10: the bracketed `a.[b,c]` before the plain `x`; the
override for `x` is performed before the expansion `a.b, a.c` is
processed. -/
theorem c10_bracketed_appended_witness :
    applyLoopFuel envC10 10 3 ["a.[b,c]".toList, "x".toList] ⟨30, []⟩ [] =
      applyLoopFuel envC10 10 1 ["a.b".toList, "a.c".toList]
        ⟨30, [("capore_tuio_server.x".toList, ⟨10, []⟩)]⟩
        [.applied "capore_tuio_server.x".toList] :=
  (c10_bracketed_appended envC10 10 0 "a.[b,c]".toList [] ⟨30, []⟩ []
    ["a.b".toList, "a.c".toList] rfl).2 1 "x".toList
    ⟨30, [("capore_tuio_server.x".toList, ⟨10, []⟩)]⟩
    [.applied "capore_tuio_server.x".toList] (by decide) rfl

/-- C9 (amended): in `--set_logging_level` processing, tokens are
consumed left to right with each upper-case token switching the current
level, and every level's dictionary entry holds exactly the namespace
tokens attributed to it by that scan, in order: the first level name
always has an entry — so it still produces a root-level override when no
namespace token is attributed to it — while any other level has an entry
iff some namespace token is attributed to it, so a non-initial level
followed by no attributed namespace tokens produces no entry and hence
no override at all (only the initial level is pre-seeded with an empty
list).  An entry with an empty namespace list produces a root-level
override: `_apply_logging_level` with an empty namespace list sets the
root logger's level. -/
theorem c9_token_level_switching
    (first : PyStr) (rest : List PyStr) (hup : pyIsUpper first = true) :
    namespacesByLevel first rest =
      .ok (procTokens (getLevelNum first) rest [(getLevelNum first, [])]) ∧
    (∀ L, alookup (procTokens (getLevelNum first) rest
        [(getLevelNum first, [])]) L =
      if L = getLevelNum first then
        some (attribsFor L (getLevelNum first) rest)
      else if attribsFor L (getLevelNum first) rest = [] then none
      else some (attribsFor L (getLevelNum first) rest)) ∧
    (∀ (env : Env) (fuel lvl : Nat) (reg : Registry),
      applyLoggingLevel env fuel lvl reg [] =
        .ok (⟨lvl, reg.nodes⟩, [.rootSet lvl])) := by
  refine ⟨by simp [namespacesByLevel, hup], ?_, ?_⟩
  · intro L
    rw [procTokens_lookup]
    by_cases hL : L = getLevelNum first
    · subst hL
      simp [alookup]
    · have hL' : ¬getLevelNum first = L := fun he => hL he.symm
      simp [alookup, hL', hL]
  · intro env fuel lvl reg
    simp [applyLoggingLevel]

/-- Witness for C9 at `--set_logging_level INFO foo DEBUG bar`: the
seeded INFO entry holds exactly `foo`, the non-initial DEBUG entry holds
exactly its attributed token `bar`, and ERROR (40), to which no token is
attributed, has no entry. -/
theorem c9_token_level_switching_witness :
    namespacesByLevel "INFO".toList
        ["foo".toList, "DEBUG".toList, "bar".toList] =
      .ok (procTokens (.num 20) ["foo".toList, "DEBUG".toList, "bar".toList]
        [(.num 20, [])]) ∧
    alookup (procTokens (.num 20) ["foo".toList, "DEBUG".toList, "bar".toList]
      [((PyLevel.num 20 : PyLevel), [])]) (.num 20) = some ["foo".toList] ∧
    alookup (procTokens (.num 20) ["foo".toList, "DEBUG".toList, "bar".toList]
      [((PyLevel.num 20 : PyLevel), [])]) (.num 10) = some ["bar".toList] ∧
    alookup (procTokens (.num 20) ["foo".toList, "DEBUG".toList, "bar".toList]
      [((PyLevel.num 20 : PyLevel), [])]) (.num 40) = none :=
  ⟨(c9_token_level_switching "INFO".toList
      ["foo".toList, "DEBUG".toList, "bar".toList] (by decide)).1,
   ((c9_token_level_switching "INFO".toList
      ["foo".toList, "DEBUG".toList, "bar".toList] (by decide)).2.1
      (.num 20)).trans (by decide),
   ((c9_token_level_switching "INFO".toList
      ["foo".toList, "DEBUG".toList, "bar".toList] (by decide)).2.1
      (.num 10)).trans (by decide),
   ((c9_token_level_switching "INFO".toList
      ["foo".toList, "DEBUG".toList, "bar".toList] (by decide)).2.1
      (.num 40)).trans (by decide)⟩

/-- Counterexample to C9 as stated: in
`--set_logging_level INFO foo DEBUG`, the trailing `DEBUG` is an
upper-case level name followed by no namespace tokens, yet the resulting
dictionary is `{INFO: [foo]}` — it has no DEBUG entry, so no root-level
override at DEBUG is produced (only the first level is pre-seeded with an
empty namespace list). -/
theorem c9_root_override_counterexample :
    pyIsUpper "DEBUG".toList = true ∧
    getLevelNum "DEBUG".toList = .num 10 ∧
    namespacesByLevel "INFO".toList ["foo".toList, "DEBUG".toList] =
      .ok [(.num 20, ["foo".toList])] ∧
    alookup [((PyLevel.num 20 : PyLevel), ["foo".toList])]
      (PyLevel.num 10) = none := by
  refine ⟨rfl, rfl, rfl, rfl⟩

end AdvLog
